import Mathlib

/-!
Verification of the bridging adapter (`src/as_value.rs`) of the serde_hessian
codec against its specification.

The adapter converts arbitrary structured application data, presented through
the serde data model, into the codec value model `Value`.  The file embeds:

* the value model `Value` (the repository file `value.rs` declaring it is not
  part of the sources at hand, so it is modelled from the specification,
  section 3);
* structural equality on `Value` (Rust derives `PartialEq`/`Eq` structurally;
  the spec requires map keys to support equality, with doubles compared by
  exact bit pattern — `Double` therefore carries its 64-bit pattern);
* the adapter itself: the serde-facing input model `SData`, the three
  compound-state serializers (`SeqSerializer`, `MapSerializer`,
  `StructSerializer`) with their `end` methods, and the entry point
  `to_value`;
* the (defective) generic `Serialize` implementation for `Value` itself.

Machine integers are embedded as `Int` together with explicit reduction
modulo the width of the source type at the points where the source performs
a cast or where the input domain of a serializer method is a fixed-width
integer type.
-/

namespace Hessian

mutual

/-- Modelled from the spec: the tagged-union value model of `value.rs`
(section 3 of the spec).  `Double` carries the 64-bit pattern of the float,
matching the spec requirement that doubles are compared by exact bit
pattern.  `Str` embeds the `Value::String` variant. -/
inductive Value where
  | Null : Value
  | Bool : Bool → Value
  | Int : Int → Value
  | Long : Int → Value
  | Double : Nat → Value
  | Date : Int → Value
  | Bytes : List Nat → Value
  | Str : String → Value
  | Ref : Nat → Value
  | List : HList → Value
  | Map : HMap → Value

/-- Modelled from the spec: the `value::List` type — a typed list carries an
opaque type name, an untyped list does not. -/
inductive HList where
  | Typed : String → List Value → HList
  | Untyped : List Value → HList

/-- Modelled from the spec: the `value::Map` type — an optional type name and
a mapping from `Value` to `Value`.  The mapping (a Rust `HashMap`, whose
iteration order is unspecified) is modelled as an association list in
first-insertion order. -/
inductive HMap where
  | mk : Option String → List (Value × Value) → HMap

end

mutual

/-- Structural equality on `Value`, as derived by Rust for `value.rs`
(`PartialEq`/`Eq`). -/
def Value.beq : Value → Value → Bool
  | .Null, .Null => true
  | .Bool a, .Bool b => a == b
  | .Int a, .Int b => a == b
  | .Long a, .Long b => a == b
  | .Double a, .Double b => a == b
  | .Date a, .Date b => a == b
  | .Bytes a, .Bytes b => a == b
  | .Str a, .Str b => a == b
  | .Ref a, .Ref b => a == b
  | .List a, .List b => HList.beq a b
  | .Map a, .Map b => HMap.beq a b
  | _, _ => false

/-- Structural equality on `value::List`. -/
def HList.beq : HList → HList → Bool
  | .Typed n a, .Typed m b => n == m && valuesBeq a b
  | .Untyped a, .Untyped b => valuesBeq a b
  | _, _ => false

/-- Structural equality on `value::Map`. -/
def HMap.beq : HMap → HMap → Bool
  | .mk n a, .mk m b => n == m && entriesBeq a b

/-- Elementwise structural equality of value sequences. -/
def valuesBeq : List Value → List Value → Bool
  | [], [] => true
  | a :: as, b :: bs => Value.beq a b && valuesBeq as bs
  | _, _ => false

/-- Elementwise structural equality of map entry sequences. -/
def entriesBeq : List (Value × Value) → List (Value × Value) → Bool
  | [], [] => true
  | (k₁, v₁) :: as, (k₂, v₂) :: bs => Value.beq k₁ k₂ && Value.beq v₁ v₂ && entriesBeq as bs
  | _, _ => false

end

mutual

theorem value_beq_refl : (v : Value) → Value.beq v v = true
  | .Null => by simp [Value.beq]
  | .Bool a => by simp [Value.beq]
  | .Int a => by simp [Value.beq]
  | .Long a => by simp [Value.beq]
  | .Double a => by simp [Value.beq]
  | .Date a => by simp [Value.beq]
  | .Bytes a => by simp [Value.beq]
  | .Str a => by simp [Value.beq]
  | .Ref a => by simp [Value.beq]
  | .List a => by simp [Value.beq, hlist_beq_refl a]
  | .Map a => by simp [Value.beq, hmap_beq_refl a]

theorem hlist_beq_refl : (l : HList) → HList.beq l l = true
  | .Typed n a => by simp [HList.beq, valuesBeq_refl a]
  | .Untyped a => by simp [HList.beq, valuesBeq_refl a]

theorem hmap_beq_refl : (m : HMap) → HMap.beq m m = true
  | .mk n a => by simp [HMap.beq, entriesBeq_refl a]

theorem valuesBeq_refl : (l : List Value) → valuesBeq l l = true
  | [] => by simp [valuesBeq]
  | a :: as => by simp [valuesBeq, value_beq_refl a, valuesBeq_refl as]

theorem entriesBeq_refl : (l : List (Value × Value)) → entriesBeq l l = true
  | [] => by simp [entriesBeq]
  | (k, v) :: as => by simp [entriesBeq, value_beq_refl k, value_beq_refl v, entriesBeq_refl as]

end

mutual

theorem value_eq_of_beq : (a b : Value) → Value.beq a b = true → a = b
  | .Null, b, h => by
      cases b <;> simp [Value.beq] at h
      rfl
  | .Bool a, b, h => by
      cases b <;> simp [Value.beq] at h
      exact congrArg Value.Bool h
  | .Int a, b, h => by
      cases b <;> simp [Value.beq] at h
      exact congrArg Value.Int h
  | .Long a, b, h => by
      cases b <;> simp [Value.beq] at h
      exact congrArg Value.Long h
  | .Double a, b, h => by
      cases b <;> simp [Value.beq] at h
      exact congrArg Value.Double h
  | .Date a, b, h => by
      cases b <;> simp [Value.beq] at h
      exact congrArg Value.Date h
  | .Bytes a, b, h => by
      cases b <;> simp [Value.beq] at h
      exact congrArg Value.Bytes h
  | .Str a, b, h => by
      cases b <;> simp [Value.beq] at h
      exact congrArg Value.Str h
  | .Ref a, b, h => by
      cases b <;> simp [Value.beq] at h
      exact congrArg Value.Ref h
  | .List a, b, h => by
      cases b <;> simp [Value.beq] at h
      exact congrArg Value.List (hlist_eq_of_beq a _ h)
  | .Map a, b, h => by
      cases b <;> simp [Value.beq] at h
      exact congrArg Value.Map (hmap_eq_of_beq a _ h)

theorem hlist_eq_of_beq : (a b : HList) → HList.beq a b = true → a = b
  | .Typed n x, b, h => by
      cases b <;> simp [HList.beq] at h
      rw [h.1, valuesEq_of_beq x _ h.2]
  | .Untyped x, b, h => by
      cases b <;> simp [HList.beq] at h
      rw [valuesEq_of_beq x _ h]

theorem hmap_eq_of_beq : (a b : HMap) → HMap.beq a b = true → a = b
  | .mk n x, b, h => by
      cases b
      simp [HMap.beq] at h
      rw [h.1, entriesEq_of_beq x _ h.2]

theorem valuesEq_of_beq : (a b : List Value) → valuesBeq a b = true → a = b
  | [], b, h => by
      cases b <;> simp [valuesBeq] at h
      rfl
  | x :: xs, b, h => by
      cases b <;> simp [valuesBeq] at h
      rw [value_eq_of_beq x _ h.1, valuesEq_of_beq xs _ h.2]

theorem entriesEq_of_beq : (a b : List (Value × Value)) → entriesBeq a b = true → a = b
  | [], b, h => by
      cases b <;> simp [entriesBeq] at h
      rfl
  | (k₁, v₁) :: xs, b, h => by
      cases b with
      | nil => simp [entriesBeq] at h
      | cons y ys =>
          obtain ⟨k₂, v₂⟩ := y
          simp [entriesBeq] at h
          rw [value_eq_of_beq k₁ _ h.1.1, value_eq_of_beq v₁ _ h.1.2,
            entriesEq_of_beq xs _ h.2]

end

instance : DecidableEq Value := fun a b =>
  if h : Value.beq a b = true then .isTrue (value_eq_of_beq a b h)
  else .isFalse (fun he => h (he ▸ value_beq_refl a))

/-- The adapter error type of `as_value.rs`: a single human-readable
message.  `Error::custom` stores the display form of its argument, so an
error raised anywhere in a conversion is just its message. -/
structure Error where
  message : String
  deriving DecidableEq

/-- The serde data model, as presented to `impl Serializer for Serializer`
in `as_value.rs`: one constructor per `serialize_*` method of the visited
contract.  Fixed-width integer arguments are embedded as `Int`; the
conversion functions below reduce them to the range of the source type.
The `f32` method is omitted (its `value as f64` step is float arithmetic,
outside this embedding); `f64` carries the 64-bit pattern, which the
adapter passes through unchanged.  The `fail` constructor models a visited
value whose own `Serialize` implementation returns
`Err(Error::custom(msg))`, the only failure source the serde contract
admits against this adapter (every `serialize_*` method of the adapter
itself returns `Ok`). -/
inductive SData where
  | bool : Bool → SData
  | i8 : Int → SData
  | i16 : Int → SData
  | i32 : Int → SData
  | i64 : Int → SData
  | u8 : Int → SData
  | u16 : Int → SData
  | u32 : Int → SData
  | u64 : Int → SData
  | f64 : Nat → SData
  | char : Char → SData
  | str : String → SData
  | bytes : List Nat → SData
  | none : SData
  | some : SData → SData
  | unit : SData
  | unitStruct : String → SData
  | unitVariant : String → Nat → String → SData
  | newtypeStruct : String → SData → SData
  | newtypeVariant : String → Nat → String → SData → SData
  | seq : List SData → SData
  | tuple : List SData → SData
  | tupleStruct : String → List SData → SData
  | tupleVariant : String → Nat → String → List SData → SData
  | map : List (SData × SData) → SData
  | struct : String → List (String × SData) → SData
  | structVariant : String → Nat → String → List (String × SData) → SData
  | fail : String → SData

/-- One step of `HashMap::insert` (`std`): if the key is already present the
stored value is replaced (the stored key is kept), otherwise the pair is
added.  The unordered `HashMap` is modelled as an association list in
first-insertion order. -/
def hmInsert (m : List (Value × Value)) (k v : Value) : List (Value × Value) :=
  if m.any (fun e => decide (e.1 = k)) then
    m.map (fun e => if e.1 = k then (e.1, v) else e)
  else m ++ [(k, v)]

/-- The `HashMap` built by inserting a list of pairs in order, as the
`for`-loops of `MapSerializer::end` and `StructSerializer::end` do. -/
def hmFromPairs (ps : List (Value × Value)) : List (Value × Value) :=
  ps.foldl (fun m e => hmInsert m e.1 e.2) []

/-- Lookup in the association-list model of `HashMap`: the value of the
first (and, once built by `hmFromPairs`, only) entry whose key equals `k`. -/
def hmLookup (m : List (Value × Value)) (k : Value) : Option Value :=
  (m.find? (fun e => decide (e.1 = k))).map Prod.snd

/-- The `SeqSerializer` state of `as_value.rs`: an optional type or variant
name and the items pushed so far. -/
structure SeqSerializer where
  name : Option String
  items : List Value

/-- The `MapSerializer` state of `as_value.rs`: keys and values pushed
independently by `serialize_key` and `serialize_value`. -/
structure MapSerializer where
  keys : List Value
  values : List Value

/-- The `StructSerializer` state of `as_value.rs`: the struct or variant
name, the field names and the field values pushed so far. -/
structure StructSerializer where
  name : String
  fields : List String
  values : List Value

/-- The `end` method of `SeqSerializer` (`ser::SerializeSeq for
SeqSerializer`): a named serializer produces the typed list form
(`value::List::from((name, items))`), an unnamed one the untyped form. -/
def seqEnd (s : SeqSerializer) : Except Error Value :=
  match s.name with
  | Option.some name => Except.ok (Value.List (HList.Typed name s.items))
  | Option.none => Except.ok (Value.List (HList.Untyped s.items))

/-- The `end` method of `MapSerializer`: the keys and values are zipped
positionally and inserted into a fresh `HashMap`; the result is an unnamed
`Value::Map`.  Surplus keys or values beyond the shorter of the two lists
are dropped by `zip`. -/
def mapEnd (s : MapSerializer) : Except Error Value :=
  Except.ok (Value.Map (HMap.mk Option.none (hmFromPairs (s.keys.zip s.values))))

/-- The `end` method of `StructSerializer`: field names and values are
zipped positionally, each name is converted to a value by `to_hessian`
(`Value::String`), and the pairs are inserted into a fresh `HashMap`; the
result is a `Value::Map` named after the struct or variant. -/
def structEnd (s : StructSerializer) : Except Error Value :=
  Except.ok (Value.Map (HMap.mk (Option.some s.name)
    (hmFromPairs ((s.fields.zip s.values).map (fun e => (Value.Str e.1, e.2))))))

mutual

/-- The adapter entry point `to_value` of `as_value.rs`, together with the
dispatch of `impl Serializer for Serializer`.  Each arm embeds the
corresponding `serialize_*` method; integer arguments are first reduced to
the range of the source argument type, and the casts of the source
(`value as i32`, `value as i64`) are embedded as the exact arithmetic they
perform on that range. -/
def to_value : SData → Except Error Value
  | .bool b => Except.ok (Value.Bool b)
  | .i8 n => Except.ok (Value.Int ((n + 128) % 256 - 128))
  | .i16 n => Except.ok (Value.Int ((n + 32768) % 65536 - 32768))
  | .i32 n => Except.ok (Value.Int ((n + 2147483648) % 4294967296 - 2147483648))
  | .i64 n =>
      Except.ok (Value.Long ((n + 9223372036854775808) % 18446744073709551616
        - 9223372036854775808))
  | .u8 n => Except.ok (Value.Int (n % 256))
  | .u16 n => Except.ok (Value.Int (n % 65536))
  | .u32 n =>
      if n % 4294967296 < 2147483647 then Except.ok (Value.Int (n % 4294967296))
      else Except.ok (Value.Long (n % 4294967296))
  | .u64 n =>
      Except.ok (Value.Long (if n % 18446744073709551616 < 9223372036854775808
        then n % 18446744073709551616
        else n % 18446744073709551616 - 18446744073709551616))
  | .f64 bits => Except.ok (Value.Double (bits % 18446744073709551616))
  | .char c => Except.ok (Value.Str (Char.toString c))
  | .str s => Except.ok (Value.Str s)
  | .bytes bs => Except.ok (Value.Bytes bs)
  | .none => Except.ok Value.Null
  | .some d => to_value d
  | .unit => Except.ok Value.Null
  | .unitStruct _ => Except.ok Value.Null
  | .unitVariant _ _ variant => Except.ok (Value.Str variant)
  | .newtypeStruct _ d => to_value d
  | .newtypeVariant _ _ _ d => to_value d
  | .seq xs => do
      let items ← serializeElements xs
      seqEnd ⟨Option.none, items⟩
  | .tuple xs => do
      let items ← serializeElements xs
      seqEnd ⟨Option.none, items⟩
  | .tupleStruct name xs => do
      let items ← serializeElements xs
      seqEnd ⟨Option.some name, items⟩
  | .tupleVariant _ _ variant xs => do
      let items ← serializeElements xs
      seqEnd ⟨Option.some variant, items⟩
  | .map ps => do
      let prs ← serializePairs ps
      mapEnd ⟨prs.map Prod.fst, prs.map Prod.snd⟩
  | .struct name fs => do
      let r ← serializeFields fs
      structEnd ⟨name, r.map Prod.fst, r.map Prod.snd⟩
  | .structVariant _ _ variant fs => do
      let r ← serializeFields fs
      structEnd ⟨variant, r.map Prod.fst, r.map Prod.snd⟩
  | .fail msg => Except.error ⟨msg⟩

/-- The serde driver loop for sequence-like values: each element is
converted by `serialize_element` (which pushes
`value.serialize(&mut Serializer::default())?`), left to right, aborting on
the first error. -/
def serializeElements : List SData → Except Error (List Value)
  | [] => Except.ok []
  | x :: xs => do
      let v ← to_value x
      let vs ← serializeElements xs
      pure (v :: vs)

/-- The serde driver loop for mapping-like values: for each entry
`serialize_key` then `serialize_value` convert the key and the value, left
to right, aborting on the first error. -/
def serializePairs : List (SData × SData) → Except Error (List (Value × Value))
  | [] => Except.ok []
  | (k, v) :: rest => do
      let kv ← to_value k
      let vv ← to_value v
      let r ← serializePairs rest
      pure ((kv, vv) :: r)

/-- The serde driver loop for record-like values: `serialize_field` records
the field name and converts the field value, left to right, aborting on the
first error. -/
def serializeFields : List (String × SData) → Except Error (List (String × Value))
  | [] => Except.ok []
  | (k, v) :: rest => do
      let vv ← to_value v
      let r ← serializeFields rest
      pure ((k, vv) :: r)

end

/-! Lemmas about the association-list model of `HashMap`. -/

theorem upd_fst (k v : Value) (e : Value × Value) :
    (if e.1 = k then (e.1, v) else e).1 = e.1 := by
  split <;> rfl

theorem hmInsert_map_fst_of_any (m : List (Value × Value)) (k v : Value)
    (hany : m.any (fun e => decide (e.1 = k)) = true) :
    (hmInsert m k v).map Prod.fst = m.map Prod.fst := by
  unfold hmInsert
  rw [if_pos hany, List.map_map]
  apply List.map_congr_left
  intro e _
  exact upd_fst k v e

theorem hmInsert_map_fst_of_not_any (m : List (Value × Value)) (k v : Value)
    (hany : ¬ m.any (fun e => decide (e.1 = k)) = true) :
    (hmInsert m k v).map Prod.fst = m.map Prod.fst ++ [k] := by
  unfold hmInsert
  rw [if_neg hany, List.map_append]
  rfl

theorem find?_upd_of_ne (m : List (Value × Value)) (k v k' : Value) (hne : k ≠ k') :
    (m.map (fun e => if e.1 = k then (e.1, v) else e)).find? (fun e => decide (e.1 = k')) =
      m.find? (fun e => decide (e.1 = k')) := by
  induction m with
  | nil => rfl
  | cons e m ih =>
      rw [List.map_cons]
      by_cases h : e.1 = k'
      · have h1 : (if e.1 = k then (e.1, v) else e).1 = k' := by rw [upd_fst]; exact h
        rw [List.find?_cons_of_pos _ (by simpa using h1), List.find?_cons_of_pos _ (by simpa using h)]
        have : ¬ e.1 = k := fun hk => hne (hk ▸ h)
        rw [if_neg this]
      · have h1 : ¬ (if e.1 = k then (e.1, v) else e).1 = k' := by rw [upd_fst]; exact h
        rw [List.find?_cons_of_neg _ (by simpa using h1), List.find?_cons_of_neg _ (by simpa using h),
          ih]

theorem find?_upd_of_any (m : List (Value × Value)) (k v : Value)
    (hany : m.any (fun e => decide (e.1 = k)) = true) :
    ((m.map (fun e => if e.1 = k then (e.1, v) else e)).find?
      (fun e => decide (e.1 = k))).map Prod.snd = Option.some v := by
  induction m with
  | nil => simp at hany
  | cons e m ih =>
      rw [List.map_cons]
      by_cases h : e.1 = k
      · rw [List.find?_cons_of_pos _ (by simp [upd_fst, h]), if_pos h]
        rfl
      · rw [List.find?_cons_of_neg _ (by simp [upd_fst, h])]
        apply ih
        simpa [List.any_cons, h] using hany

theorem hmLookup_hmInsert (m : List (Value × Value)) (k v k' : Value) :
    hmLookup (hmInsert m k v) k' = if k = k' then Option.some v else hmLookup m k' := by
  unfold hmInsert hmLookup
  by_cases hany : m.any (fun e => decide (e.1 = k)) = true
  · rw [if_pos hany]
    by_cases hk : k = k'
    · subst hk
      rw [if_pos rfl, find?_upd_of_any m k v hany]
    · rw [if_neg hk, find?_upd_of_ne m k v k' hk]
  · rw [if_neg hany, List.find?_append]
    have hnone : m.find? (fun e => decide (e.1 = k)) = Option.none := by
      apply List.find?_eq_none.mpr
      intro e he
      simp only [decide_eq_true_eq]
      intro hk
      exact hany (List.any_eq_true.mpr ⟨e, he, by simp [hk]⟩)
    by_cases hk : k = k'
    · subst hk
      rw [hnone]
      simp [List.find?]
    · have : ([(k, v)].find? (fun e => decide (e.1 = k'))) = Option.none := by
        simp [List.find?, hk]
      rw [this]
      cases hm : m.find? (fun e => decide (e.1 = k')) <;> simp [Option.or, hk]

theorem hmInsert_pairwise (m : List (Value × Value)) (k v : Value)
    (h : (m.map Prod.fst).Pairwise (· ≠ ·)) :
    ((hmInsert m k v).map Prod.fst).Pairwise (· ≠ ·) := by
  by_cases hany : m.any (fun e => decide (e.1 = k)) = true
  · rw [hmInsert_map_fst_of_any m k v hany]
    exact h
  · rw [hmInsert_map_fst_of_not_any m k v hany]
    apply List.pairwise_append.mpr
    refine ⟨h, by simp, ?_⟩
    intro a ha b hb
    simp only [List.mem_singleton] at hb
    subst hb
    rw [List.mem_map] at ha
    obtain ⟨e, he, rfl⟩ := ha
    intro hk
    exact hany (List.any_eq_true.mpr ⟨e, he, by simp [hk]⟩)

theorem hmInsert_mem (m : List (Value × Value)) (k v : Value) :
    ∀ e ∈ hmInsert m k v, e ∈ m ∨ e = (k, v) := by
  unfold hmInsert
  split
  · intro e he
    rw [List.mem_map] at he
    obtain ⟨a, ha, rfl⟩ := he
    by_cases h : a.1 = k
    · rw [if_pos h, h]
      right
      rfl
    · rw [if_neg h]
      left
      exact ha
  · intro e he
    rw [List.mem_append] at he
    rcases he with he | he
    · left
      exact he
    · right
      simpa using he

theorem hmInsert_length (m : List (Value × Value)) (k v : Value) :
    (hmInsert m k v).length ≤ m.length + 1 := by
  unfold hmInsert
  split
  · simp [List.length_map]
  · simp

theorem foldl_hmInsert_pairwise (ps : List (Value × Value)) :
    ∀ m, (m.map Prod.fst).Pairwise (· ≠ ·) →
      (((ps.foldl (fun m e => hmInsert m e.1 e.2) m)).map Prod.fst).Pairwise (· ≠ ·) := by
  induction ps with
  | nil => exact fun m h => h
  | cons p rest ih =>
      intro m h
      rw [List.foldl_cons]
      exact ih _ (hmInsert_pairwise m p.1 p.2 h)

theorem foldl_hmInsert_lookup (ps : List (Value × Value)) :
    ∀ m k, hmLookup (ps.foldl (fun m e => hmInsert m e.1 e.2) m) k =
      match ps.reverse.find? (fun e => decide (e.1 = k)) with
      | Option.some e => Option.some e.2
      | Option.none => hmLookup m k := by
  induction ps with
  | nil => simp
  | cons p rest ih =>
      intro m k
      rw [List.foldl_cons, ih, List.reverse_cons, List.find?_append]
      cases hfind : rest.reverse.find? (fun e => decide (e.1 = k)) with
      | some e => simp [Option.or]
      | none =>
          simp only [Option.or]
          by_cases hk : p.1 = k
          · simp [List.find?, hk, hmLookup_hmInsert]
          · simp [List.find?, hk, hmLookup_hmInsert]

theorem foldl_hmInsert_mem (ps : List (Value × Value)) :
    ∀ m, ∀ e ∈ ps.foldl (fun m e => hmInsert m e.1 e.2) m, e ∈ m ∨ e ∈ ps := by
  induction ps with
  | nil => exact fun m e he => Or.inl he
  | cons p rest ih =>
      intro m e he
      rw [List.foldl_cons] at he
      rcases ih _ e he with h | h
      · rcases hmInsert_mem m p.1 p.2 e h with h' | h'
        · left
          exact h'
        · right
          simp [h']
      · right
        simp [h]

theorem foldl_hmInsert_length (ps : List (Value × Value)) :
    ∀ m, (ps.foldl (fun m e => hmInsert m e.1 e.2) m).length ≤ m.length + ps.length := by
  induction ps with
  | nil => simp
  | cons p rest ih =>
      intro m
      rw [List.foldl_cons]
      calc (rest.foldl (fun m e => hmInsert m e.1 e.2) (hmInsert m p.1 p.2)).length
          ≤ (hmInsert m p.1 p.2).length + rest.length := ih _
        _ ≤ (m.length + 1) + rest.length := by
            have := hmInsert_length m p.1 p.2
            omega
        _ = m.length + (p :: rest).length := by simp; omega

theorem foldl_hmInsert_of_pairwise (ps : List (Value × Value)) :
    ∀ m, ((m ++ ps).map Prod.fst).Pairwise (· ≠ ·) →
      ps.foldl (fun m e => hmInsert m e.1 e.2) m = m ++ ps := by
  induction ps with
  | nil => simp
  | cons p rest ih =>
      intro m h
      rw [List.foldl_cons]
      have hnokey : ¬ m.any (fun e => decide (e.1 = p.1)) = true := by
        intro hany
        rw [List.any_eq_true] at hany
        obtain ⟨e, he, hkey⟩ := hany
        rw [decide_eq_true_eq] at hkey
        rw [List.map_append, List.pairwise_append] at h
        have := h.2.2 e.1 (List.mem_map.mpr ⟨e, he, rfl⟩) p.1 (by simp)
        exact this hkey
      have hins : hmInsert m p.1 p.2 = m ++ [p] := by
        unfold hmInsert
        rw [if_neg hnokey]
      rw [hins, ih (m ++ [p]) (by simpa [List.append_assoc] using h)]
      simp

/-- The behaviour of `hmFromPairs`, the `HashMap` built by the `for`-loops of
the two map-building `end` methods: keys are unique, the value retained for
a key is the one of the last pair carrying that key, every entry is one of
the inserted pairs, and there are at most as many entries as pairs. -/
theorem hmFromPairs_spec (ps : List (Value × Value)) :
    ((hmFromPairs ps).map Prod.fst).Pairwise (· ≠ ·) ∧
    (∀ k, hmLookup (hmFromPairs ps) k =
      (ps.reverse.find? (fun e => decide (e.1 = k))).map Prod.snd) ∧
    (∀ e ∈ hmFromPairs ps, e ∈ ps) ∧
    (hmFromPairs ps).length ≤ ps.length := by
  refine ⟨foldl_hmInsert_pairwise ps [] (by simp), ?_, ?_, ?_⟩
  · intro k
    rw [hmFromPairs, foldl_hmInsert_lookup ps [] k]
    cases hfind : ps.reverse.find? (fun e => decide (e.1 = k)) <;> simp [hmLookup]
  · intro e he
    rcases foldl_hmInsert_mem ps [] e he with h | h
    · simp at h
    · exact h
  · have := foldl_hmInsert_length ps []
    simpa using this

/-! Lemmas about the serde driver loops. -/

theorem serializeElements_of_forall₂ (xs : List SData) (vs : List Value)
    (h : List.Forall₂ (fun x v => to_value x = Except.ok v) xs vs) :
    serializeElements xs = Except.ok vs := by
  induction h with
  | nil => simp [serializeElements]
  | cons h1 _ ih =>
      rw [serializeElements, h1, ih]
      rfl

theorem serializeFields_of_forall₂ (fs : List (String × SData)) (vs : List Value)
    (h : List.Forall₂ (fun f v => to_value f.2 = Except.ok v) fs vs) :
    serializeFields fs = Except.ok (List.zipWith (fun f v => (f.1, v)) fs vs) := by
  induction h with
  | nil => simp [serializeFields]
  | @cons f v fs vs h1 _ ih =>
      obtain ⟨fname, fdata⟩ := f
      rw [serializeFields, h1, ih]
      rfl

theorem serializePairs_of_forall₂ (ps : List (SData × SData)) (vps : List (Value × Value))
    (h : List.Forall₂ (fun p vp => to_value p.1 = Except.ok vp.1 ∧
      to_value p.2 = Except.ok vp.2) ps vps) :
    serializePairs ps = Except.ok vps := by
  induction h with
  | nil => simp [serializePairs]
  | @cons p vp ps vps h1 _ ih =>
      obtain ⟨pk, pv⟩ := p
      obtain ⟨vk, vv⟩ := vp
      rw [serializePairs, h1.1, h1.2, ih]
      rfl

theorem serializeElements_error (xs ys : List SData) (d : SData) (e : Error)
    (hxs : ∀ x ∈ xs, ∃ v, to_value x = Except.ok v)
    (hd : to_value d = Except.error e) :
    serializeElements (xs ++ d :: ys) = Except.error e := by
  induction xs with
  | nil =>
      rw [List.nil_append, serializeElements, hd]
      rfl
  | cons x xs ih =>
      obtain ⟨v, hv⟩ := hxs x (by simp)
      rw [List.cons_append, serializeElements, hv, ih (fun x hx => hxs x (by simp [hx]))]
      rfl

theorem serializePairs_key_error (ps rest : List (SData × SData)) (d w : SData) (e : Error)
    (hps : ∀ p ∈ ps, (∃ kv, to_value p.1 = Except.ok kv) ∧ ∃ vv, to_value p.2 = Except.ok vv)
    (hd : to_value d = Except.error e) :
    serializePairs (ps ++ (d, w) :: rest) = Except.error e := by
  induction ps with
  | nil =>
      rw [List.nil_append, serializePairs, hd]
      rfl
  | cons p ps ih =>
      obtain ⟨pk, pv⟩ := p
      obtain ⟨⟨kv, hkv⟩, vv, hvv⟩ := hps (pk, pv) (by simp)
      rw [List.cons_append, serializePairs, hkv, hvv, ih (fun p hp => hps p (by simp [hp]))]
      rfl

theorem serializePairs_value_error (ps rest : List (SData × SData)) (k d : SData) (e : Error)
    (hps : ∀ p ∈ ps, (∃ kv, to_value p.1 = Except.ok kv) ∧ ∃ vv, to_value p.2 = Except.ok vv)
    (hk : ∃ kv, to_value k = Except.ok kv)
    (hd : to_value d = Except.error e) :
    serializePairs (ps ++ (k, d) :: rest) = Except.error e := by
  induction ps with
  | nil =>
      obtain ⟨kv, hkv⟩ := hk
      rw [List.nil_append, serializePairs, hkv, hd]
      rfl
  | cons p ps ih =>
      obtain ⟨pk, pv⟩ := p
      obtain ⟨⟨kv, hkv⟩, vv, hvv⟩ := hps (pk, pv) (by simp)
      rw [List.cons_append, serializePairs, hkv, hvv, ih (fun p hp => hps p (by simp [hp]))]
      rfl

theorem serializeFields_error (fs rest : List (String × SData)) (f : String) (d : SData)
    (e : Error)
    (hfs : ∀ p ∈ fs, ∃ vv, to_value p.2 = Except.ok vv)
    (hd : to_value d = Except.error e) :
    serializeFields (fs ++ (f, d) :: rest) = Except.error e := by
  induction fs with
  | nil =>
      rw [List.nil_append, serializeFields, hd]
      rfl
  | cons p fs ih =>
      obtain ⟨pk, pv⟩ := p
      obtain ⟨vv, hvv⟩ := hfs (pk, pv) (by simp)
      rw [List.cons_append, serializeFields, hvv, ih (fun p hp => hfs p (by simp [hp]))]
      rfl

/-- Result type for the embedding of `impl serde::Serialize for Value`
instantiated at the adapter serializer.  The `List` branch of that source
implementation ends in `seq.end()` where no binding `seq` exists (the
serializer was bound as `ser`), so the branch has no semantics at all; it
is embedded as the distinguished result `undefinedBinding`. -/
inductive GenOut where
  | ok : Value → GenOut
  | err : Error → GenOut
  | undefinedBinding : GenOut
  deriving DecidableEq

/-- Embedding of `impl serde::Serialize for Value` from `as_value.rs`,
instantiated at the adapter serializer.  Scalar branches call the
corresponding `serialize_*` method.  The `Value::Map` branch of the source
is `Error("test".into())` — a hard-coded placeholder error with message
`"test"` and no serialization of the entries.  The `Value::List` branch
refers to the undefined binding `seq` and is embedded as
`undefinedBinding` (see `GenOut`). -/
def serializeValueGeneric : Value → GenOut
  | Value.Null => GenOut.ok Value.Null
  | Value.Bool b => GenOut.ok (Value.Bool b)
  | Value.Int i => GenOut.ok (Value.Int ((i + 2147483648) % 4294967296 - 2147483648))
  | Value.Long l =>
      GenOut.ok (Value.Long ((l + 9223372036854775808) % 18446744073709551616
        - 9223372036854775808))
  | Value.Double d => GenOut.ok (Value.Double (d % 18446744073709551616))
  | Value.Date d =>
      GenOut.ok (Value.Long ((d + 9223372036854775808) % 18446744073709551616
        - 9223372036854775808))
  | Value.Bytes bs => GenOut.ok (Value.Bytes bs)
  | Value.Str s => GenOut.ok (Value.Str s)
  | Value.Ref i =>
      GenOut.ok (Value.Int ((((i : Int) % 4294967296) + 2147483648) % 4294967296 - 2147483648))
  | Value.List _ => GenOut.undefinedBinding
  | Value.Map _ => GenOut.err ⟨"test"⟩

theorem zip_map_fst_snd {α β : Type} (l : List (α × β)) :
    (l.map Prod.fst).zip (l.map Prod.snd) = l := by
  induction l with
  | nil => rfl
  | cons p l ih => simp [List.zip_cons_cons, ih]

theorem zipWith_pair_eq_zip_map_fst {α β γ : Type} (fs : List (α × β)) (vs : List γ) :
    List.zipWith (fun f v => (f.1, v)) fs vs = (fs.map Prod.fst).zip vs := by
  induction fs generalizing vs with
  | nil => simp
  | cons f fs ih => cases vs <;> simp [List.zip_cons_cons, ih]

/-! The claims. -/

/-- C1 (corrected): `serialize_u32` compares with `value <
i32::max_value() as u32`, a strict comparison, so an unsigned 32-bit input
is converted to `Value::Int` exactly when it is strictly below 2147483647
and is promoted to `Value::Long` from 2147483647 on.  In particular the
boundary value 2147483647 itself — contrary to the claim — maps to
`Value::Long`. -/
theorem serialize_u32_promotion (u : Int) (h0 : 0 ≤ u) (h32 : u < 4294967296) :
    (u < 2147483647 → to_value (SData.u32 u) = Except.ok (Value.Int u)) ∧
    (2147483647 ≤ u → to_value (SData.u32 u) = Except.ok (Value.Long u)) := by
  have hmod : u % 4294967296 = u := Int.emod_eq_of_lt h0 h32
  constructor
  · intro h
    simp only [to_value, hmod]
    rw [if_pos h]
  · intro h
    simp only [to_value, hmod]
    rw [if_neg (by omega)]

/-- C1, counterexample to the claim as stated: the boundary value
2147483647 is converted to `Value::Long`, not to `Value::Int`. -/
theorem serialize_u32_boundary_counterexample :
    to_value (SData.u32 2147483647) = Except.ok (Value.Long 2147483647) ∧
    ¬ to_value (SData.u32 2147483647) = Except.ok (Value.Int 2147483647) := by
  constructor
  · simp [to_value]
  · simp [to_value]

/-- C1, witness: the corrected theorem applied at the boundary input
2147483647, whose hypotheses hold there. -/
theorem serialize_u32_promotion_witness :
    ((0 : Int) ≤ 2147483647 ∧ (2147483647 : Int) < 4294967296) ∧
    to_value (SData.u32 2147483647) = Except.ok (Value.Long 2147483647) :=
  ⟨⟨by norm_num, by norm_num⟩,
    (serialize_u32_promotion 2147483647 (by norm_num) (by norm_num)).2 (by norm_num)⟩

/-- C6: the absent cases — `serialize_none` and `serialize_unit` — produce
`Value::Null`, and `serialize_some` passes its content through unchanged:
converting `Some(x)` gives exactly the result of converting `x`. -/
theorem optional_collapse :
    to_value SData.none = Except.ok Value.Null ∧
    to_value SData.unit = Except.ok Value.Null ∧
    ∀ d, to_value (SData.some d) = to_value d := by
  refine ⟨by simp [to_value], by simp [to_value], fun d => ?_⟩
  simp only [to_value]

/-- C7: every 8-bit or 16-bit integer input, signed or unsigned, is widened
by `value as i32` to a `Value::Int` carrying the same mathematical value —
never a `Long`, never truncated. -/
theorem small_int_widening (n : Int) :
    (-128 ≤ n → n ≤ 127 → to_value (SData.i8 n) = Except.ok (Value.Int n)) ∧
    (-32768 ≤ n → n ≤ 32767 → to_value (SData.i16 n) = Except.ok (Value.Int n)) ∧
    (0 ≤ n → n ≤ 255 → to_value (SData.u8 n) = Except.ok (Value.Int n)) ∧
    (0 ≤ n → n ≤ 65535 → to_value (SData.u16 n) = Except.ok (Value.Int n)) := by
  refine ⟨fun h1 h2 => ?_, fun h1 h2 => ?_, fun h1 h2 => ?_, fun h1 h2 => ?_⟩
  · simp only [to_value]
    have h : (n + 128) % 256 - 128 = n := by omega
    rw [h]
  · simp only [to_value]
    have h : (n + 32768) % 65536 - 32768 = n := by omega
    rw [h]
  · simp only [to_value]
    have h : n % 256 = n := by omega
    rw [h]
  · simp only [to_value]
    have h : n % 65536 = n := by omega
    rw [h]

/-- C7, witness: the widening theorem applied to the concrete in-range input
100 for all four widths. -/
theorem small_int_widening_witness :
    to_value (SData.i8 100) = Except.ok (Value.Int 100) ∧
    to_value (SData.i16 100) = Except.ok (Value.Int 100) ∧
    to_value (SData.u8 100) = Except.ok (Value.Int 100) ∧
    to_value (SData.u16 100) = Except.ok (Value.Int 100) :=
  ⟨(small_int_widening 100).1 (by norm_num) (by norm_num),
   (small_int_widening 100).2.1 (by norm_num) (by norm_num),
   (small_int_widening 100).2.2.1 (by norm_num) (by norm_num),
   (small_int_widening 100).2.2.2 (by norm_num) (by norm_num)⟩

/-- C9: `serialize_u64` converts by `value as i64`, a plain bit
reinterpretation: an unsigned 64-bit input above `i64::MAX` becomes the
negative `Value::Long` equal to the input minus 2 to the 64, with no error
and no promotion, while inputs up to `i64::MAX` keep their value. -/
theorem serialize_u64_reinterpret (u : Int) (h0 : 0 ≤ u)
    (h64 : u < 18446744073709551616) :
    (9223372036854775807 < u →
      to_value (SData.u64 u) = Except.ok (Value.Long (u - 18446744073709551616)) ∧
      u - 18446744073709551616 < 0) ∧
    (u ≤ 9223372036854775807 → to_value (SData.u64 u) = Except.ok (Value.Long u)) := by
  have hmod : u % 18446744073709551616 = u := Int.emod_eq_of_lt h0 h64
  constructor
  · intro h
    refine ⟨?_, by omega⟩
    simp only [to_value, hmod]
    rw [if_neg (by omega)]
  · intro h
    simp only [to_value, hmod]
    rw [if_pos (by omega)]

/-- C9, witness: the reinterpretation theorem applied at the concrete input
2 to the 63, one above `i64::MAX`, where the result is the negative long
-9223372036854775808. -/
theorem serialize_u64_reinterpret_witness :
    ((0 : Int) ≤ 9223372036854775808 ∧
      (9223372036854775808 : Int) < 18446744073709551616) ∧
    to_value (SData.u64 9223372036854775808) =
      Except.ok (Value.Long (-9223372036854775808)) ∧
    (-9223372036854775808 : Int) < 0 :=
  ⟨⟨by norm_num, by norm_num⟩, by
    have h := (serialize_u64_reinterpret 9223372036854775808 (by norm_num)
      (by norm_num)).1 (by norm_num)
    constructor
    · have h1 := h.1
      norm_num at h1
      exact h1
    · norm_num⟩

/-- C2: when the conversion of a nested element, key, value or field fails
with some error, that error is propagated unchanged through
`serialize_element`, `serialize_key`, `serialize_value` and
`serialize_field` and becomes the single result of the enclosing
conversion; no partially built `List` or `Map` is returned (the result is
`Except.error e`, which carries no value). -/
theorem adapter_error_propagation (d : SData) (e : Error)
    (hd : to_value d = Except.error e) :
    (∀ xs ys, (∀ x ∈ xs, ∃ v, to_value x = Except.ok v) →
      to_value (SData.seq (xs ++ d :: ys)) = Except.error e) ∧
    (∀ ps rest w,
      (∀ p ∈ ps, (∃ kv, to_value p.1 = Except.ok kv) ∧ ∃ vv, to_value p.2 = Except.ok vv) →
      to_value (SData.map (ps ++ (d, w) :: rest)) = Except.error e) ∧
    (∀ ps rest k,
      (∀ p ∈ ps, (∃ kv, to_value p.1 = Except.ok kv) ∧ ∃ vv, to_value p.2 = Except.ok vv) →
      (∃ kv, to_value k = Except.ok kv) →
      to_value (SData.map (ps ++ (k, d) :: rest)) = Except.error e) ∧
    (∀ name fs rest f, (∀ p ∈ fs, ∃ vv, to_value p.2 = Except.ok vv) →
      to_value (SData.struct name (fs ++ (f, d) :: rest)) = Except.error e) := by
  refine ⟨fun xs ys hxs => ?_, fun ps rest w hps => ?_, fun ps rest k hps hk => ?_,
    fun name fs rest f hfs => ?_⟩
  · rw [to_value, serializeElements_error xs ys d e hxs hd]
    rfl
  · rw [to_value, serializePairs_key_error ps rest d w e hps hd]
    rfl
  · rw [to_value, serializePairs_value_error ps rest k d e hps hk hd]
    rfl
  · rw [to_value, serializeFields_error fs rest f d e hfs hd]
    rfl

/-- C2, witness: a failing second element aborts a sequence conversion with
the inner error, and a failing field value aborts a struct conversion with
the inner error, no value being produced in either case. -/
theorem adapter_error_propagation_witness :
    to_value (SData.fail "boom") = Except.error ⟨"boom"⟩ ∧
    to_value (SData.seq ([SData.i32 1] ++ SData.fail "boom" :: [])) =
      Except.error ⟨"boom"⟩ ∧
    to_value (SData.struct "S" ([("a", SData.bool true)] ++
      ("b", SData.fail "boom") :: [])) = Except.error ⟨"boom"⟩ := by
  have hd : to_value (SData.fail "boom") = Except.error ⟨"boom"⟩ := by
    simp [to_value]
  refine ⟨hd, ?_, ?_⟩
  · apply (adapter_error_propagation _ _ hd).1 [SData.i32 1] []
    intro x hx
    simp only [List.mem_singleton] at hx
    subst hx
    exact ⟨Value.Int 1, by norm_num [to_value]⟩
  · apply (adapter_error_propagation _ _ hd).2.2.2 "S" [("a", SData.bool true)] [] "b"
    intro p hp
    simp only [List.mem_singleton] at hp
    subst hp
    exact ⟨Value.Bool true, by simp [to_value]⟩

/-- C5: sequence-like inputs become `Value::List`: plain sequences and
tuples produce the untyped form with the converted elements in order, while
tuple structs and tuple variants, which carry a type or variant name,
produce the typed form carrying that name and the converted elements in
order. -/
theorem seq_list_forms (xs : List SData) (vs : List Value)
    (hconv : List.Forall₂ (fun x v => to_value x = Except.ok v) xs vs) :
    to_value (SData.seq xs) = Except.ok (Value.List (HList.Untyped vs)) ∧
    to_value (SData.tuple xs) = Except.ok (Value.List (HList.Untyped vs)) ∧
    (∀ name, to_value (SData.tupleStruct name xs) =
      Except.ok (Value.List (HList.Typed name vs))) ∧
    (∀ name vidx variant, to_value (SData.tupleVariant name vidx variant xs) =
      Except.ok (Value.List (HList.Typed variant vs))) := by
  have h := serializeElements_of_forall₂ xs vs hconv
  refine ⟨?_, ?_, fun name => ?_, fun name vidx variant => ?_⟩ <;>
    rw [to_value, h] <;> rfl

/-- C5, witness: a two-element sequence gives an untyped list, and the same
elements under a tuple struct named `"P"` give a typed list named `"P"`. -/
theorem seq_list_forms_witness :
    to_value (SData.seq [SData.bool true, SData.str "x"]) =
      Except.ok (Value.List (HList.Untyped [Value.Bool true, Value.Str "x"])) ∧
    to_value (SData.tupleStruct "P" [SData.bool true, SData.str "x"]) =
      Except.ok (Value.List (HList.Typed "P" [Value.Bool true, Value.Str "x"])) := by
  have hconv : List.Forall₂ (fun x v => to_value x = Except.ok v)
      [SData.bool true, SData.str "x"] [Value.Bool true, Value.Str "x"] := by
    refine List.Forall₂.cons (by simp [to_value]) ?_
    exact List.Forall₂.cons (by simp [to_value]) List.Forall₂.nil
  exact ⟨(seq_list_forms _ _ hconv).1, (seq_list_forms _ _ hconv).2.2.1 "P"⟩

/-- C4: a struct or struct variant with pairwise distinct field names
becomes a named `Value::Map` whose type name is the struct name (for a
variant: the variant name) and whose entries are exactly the field names as
`Value::String` keys paired with the converted field values. -/
theorem struct_named_map (name vname : String) (vidx : Nat)
    (fs : List (String × SData)) (vs : List Value)
    (hconv : List.Forall₂ (fun f v => to_value f.2 = Except.ok v) fs vs)
    (hdist : (fs.map Prod.fst).Pairwise (· ≠ ·)) :
    to_value (SData.struct name fs) = Except.ok (Value.Map (HMap.mk (Option.some name)
      (((fs.map Prod.fst).zip vs).map (fun e => (Value.Str e.1, e.2))))) ∧
    to_value (SData.structVariant name vidx vname fs) =
      Except.ok (Value.Map (HMap.mk (Option.some vname)
        (((fs.map Prod.fst).zip vs).map (fun e => (Value.Str e.1, e.2))))) := by
  have hr := serializeFields_of_forall₂ fs vs hconv
  have hlen : (fs.map Prod.fst).length ≤ vs.length := by
    rw [List.length_map, List.Forall₂.length_eq hconv]
  have hzip : List.zipWith (fun f v => (f.1, v)) fs vs = (fs.map Prod.fst).zip vs :=
    zipWith_pair_eq_zip_map_fst fs vs
  have hkeys : ((((fs.map Prod.fst).zip vs).map
      (fun e => (Value.Str e.1, e.2))).map Prod.fst).Pairwise (· ≠ ·) := by
    rw [List.map_map]
    have heq : (((fs.map Prod.fst).zip vs).map
        (fun e : String × Value => Value.Str e.1)) =
        (((fs.map Prod.fst).zip vs).map Prod.fst).map Value.Str := by
      rw [List.map_map]
      rfl
    show (((fs.map Prod.fst).zip vs).map
        (fun e : String × Value => Value.Str e.1)).Pairwise (· ≠ ·)
    rw [heq, List.map_fst_zip _ _ hlen, List.pairwise_map]
    exact hdist.imp (fun hne hab => hne (by simpa [Value.Str.injEq] using hab))
  have hfold : hmFromPairs (((fs.map Prod.fst).zip vs).map
      (fun e => (Value.Str e.1, e.2))) =
      ((fs.map Prod.fst).zip vs).map (fun e => (Value.Str e.1, e.2)) := by
    have h := foldl_hmInsert_of_pairwise
      ((((fs.map Prod.fst).zip vs).map (fun e => (Value.Str e.1, e.2)))) []
    rw [hmFromPairs]
    simpa using h (by simpa using hkeys)
  constructor <;>
    rw [to_value, hr] <;>
    simp only [structEnd, Bind.bind, Except.bind] <;>
    rw [zip_map_fst_snd, hzip, hfold]

/-- C4, witness: a two-field struct named `"Point"` becomes the named map
keyed by its field names as string values. -/
theorem struct_named_map_witness :
    to_value (SData.struct "Point" [("x", SData.bool true), ("y", SData.str "q")]) =
      Except.ok (Value.Map (HMap.mk (Option.some "Point")
        [(Value.Str "x", Value.Bool true), (Value.Str "y", Value.Str "q")])) := by
  have hconv : List.Forall₂ (fun (f : String × SData) v => to_value f.2 = Except.ok v)
      [("x", SData.bool true), ("y", SData.str "q")] [Value.Bool true, Value.Str "q"] := by
    refine List.Forall₂.cons (by simp [to_value]) ?_
    exact List.Forall₂.cons (by simp [to_value]) List.Forall₂.nil
  have h := (struct_named_map "Point" "V" 0 _ _ hconv (by simp)).1
  simpa using h

/-- C3: the map produced by `MapSerializer::end` has pairwise distinct
keys, and looking a key up in it gives the value of the last zipped
key/value pair carrying that key — last write wins on collision. -/
theorem map_unique_keys_last_write_wins (keys values : List Value) :
    ∃ entries,
      mapEnd ⟨keys, values⟩ = Except.ok (Value.Map (HMap.mk Option.none entries)) ∧
      (entries.map Prod.fst).Pairwise (· ≠ ·) ∧
      ∀ k, hmLookup entries k =
        ((keys.zip values).reverse.find? (fun e => decide (e.1 = k))).map Prod.snd :=
  ⟨hmFromPairs (keys.zip values), rfl, (hmFromPairs_spec _).1, (hmFromPairs_spec _).2.1⟩

/-- C10: `MapSerializer::end` never raises an error, even when the numbers
of pushed keys and values differ: the keys and values are paired by
position via `zip`, the surplus of the longer list is silently discarded,
every entry of the resulting map is one of the zipped pairs, and the map
has at most `min(number of keys, number of values)` entries. -/
theorem map_end_mismatched_counts (keys values : List Value) :
    ∃ entries,
      mapEnd ⟨keys, values⟩ = Except.ok (Value.Map (HMap.mk Option.none entries)) ∧
      (∀ e ∈ entries, e ∈ keys.zip values) ∧
      entries.length ≤ min keys.length values.length := by
  refine ⟨hmFromPairs (keys.zip values), rfl, (hmFromPairs_spec _).2.2.1, ?_⟩
  calc (hmFromPairs (keys.zip values)).length
      ≤ (keys.zip values).length := (hmFromPairs_spec _).2.2.2
    _ = min keys.length values.length := by rw [List.length_zip]

/-- C8: the generic `Serialize` implementation for `Value` is defective on
the composite branches: every `Value::Map` input yields only the hard-coded
placeholder error with message `"test"` (its entries are never serialized),
and every `Value::List` input falls into the branch whose `seq.end()` call
refers to an undefined local binding; neither branch ever produces a
serialized value, so the section 4.4 mapping rules are never followed for
these inputs. -/
theorem value_generic_serialize_defective :
    (∀ m, serializeValueGeneric (Value.Map m) = GenOut.err ⟨"test"⟩) ∧
    (∀ m v, ¬ serializeValueGeneric (Value.Map m) = GenOut.ok v) ∧
    (∀ l, serializeValueGeneric (Value.List l) = GenOut.undefinedBinding) ∧
    (∀ l v, ¬ serializeValueGeneric (Value.List l) = GenOut.ok v) := by
  refine ⟨fun m => ?_, fun m v => ?_, fun l => ?_, fun l v => ?_⟩ <;>
    simp [serializeValueGeneric]

end Hessian
